import Mathlib

/-!
Verification of the alignment-and-tag-normalization pipeline
(`lab_6_pipeline/pipeline.py`) against its natural-language specification.

The Python source is shallowly embedded below: each class becomes a
structure, each method a Lean function on it, the document-wide analyzer
stream a `List AnalyzerRecord`, and the fallible POS conversion an
`Except`-valued function.  External collaborators (sentence segmentation,
the Mystem analyzer itself) enter as plain inputs, exactly as `_process`
receives their outputs.
-/

/-! ## Character model

Python's character predicates (`str.isalnum`, `re` classes `\w` and `\s`,
`str.lower`, `str.strip`, `str.isdigit`) are Unicode-aware.  They are
modelled here restricted to ASCII plus the basic Cyrillic block
(U+0410-U+044F together with Ё/ё), the character repertoire this Russian
NLP pipeline operates on. -/

/-- Python `c.isalnum()` on the modelled repertoire: ASCII digits and
letters, Cyrillic letters of the basic block, and Ё/ё. -/
def pyIsAlnum (c : Char) : Bool :=
  (48 ≤ c.toNat && c.toNat ≤ 57) || (65 ≤ c.toNat && c.toNat ≤ 90) ||
  (97 ≤ c.toNat && c.toNat ≤ 122) || (1040 ≤ c.toNat && c.toNat ≤ 1103) ||
  c.toNat = 1025 || c.toNat = 1105

/-- The regex class `\w` (word character): alphanumeric or underscore. -/
def pyIsWordChar (c : Char) : Bool :=
  pyIsAlnum c || c.toNat = 95

/-- The regex class `\s` / Python's default `str.strip` set:
space, tab, newline, vertical tab, form feed, carriage return. -/
def pyIsSpace (c : Char) : Bool :=
  c.toNat = 32 || c.toNat = 9 || c.toNat = 10 ||
  c.toNat = 11 || c.toNat = 12 || c.toNat = 13

/-- Python `str.lower`, per character, on the modelled repertoire:
ASCII A-Z and Cyrillic А-Я shift by 32, Ё maps to ё. -/
def pyToLower (c : Char) : Char :=
  if 65 ≤ c.toNat ∧ c.toNat ≤ 90 then Char.ofNat (c.toNat + 32)
  else if 1040 ≤ c.toNat ∧ c.toNat ≤ 1071 then Char.ofNat (c.toNat + 32)
  else if c.toNat = 1025 then Char.ofNat 1105
  else c

theorem char_toNat_ofNat_of_lt {n : Nat} (h : n < 55296) :
    (Char.ofNat n).toNat = n := by
  unfold Char.ofNat
  rw [dif_pos (Or.inl h)]
  rfl

theorem pyToLower_idem (c : Char) : pyToLower (pyToLower c) = pyToLower c := by
  unfold pyToLower
  by_cases h1 : 65 ≤ c.toNat ∧ c.toNat ≤ 90
  · rw [if_pos h1]
    have ht : (Char.ofNat (c.toNat + 32)).toNat = c.toNat + 32 :=
      char_toNat_ofNat_of_lt (by omega)
    rw [if_neg (by omega), if_neg (by omega), if_neg (by omega)]
  · rw [if_neg h1]
    by_cases h2 : 1040 ≤ c.toNat ∧ c.toNat ≤ 1071
    · rw [if_pos h2]
      have ht : (Char.ofNat (c.toNat + 32)).toNat = c.toNat + 32 :=
        char_toNat_ofNat_of_lt (by omega)
      rw [if_neg (by omega), if_neg (by omega), if_neg (by omega)]
    · rw [if_neg h2]
      by_cases h3 : c.toNat = 1025
      · rw [if_pos h3]
        have ht : (Char.ofNat 1105).toNat = 1105 :=
          char_toNat_ofNat_of_lt (by omega)
        rw [if_neg (by omega), if_neg (by omega), if_neg (by omega)]
      · rw [if_neg h3, if_neg h1, if_neg h2, if_neg h3]

/-- The character class kept by `get_cleaned`: word characters and whitespace. -/
def pyKeep (c : Char) : Bool :=
  pyIsWordChar c || pyIsSpace c

theorem pyKeep_pyToLower (c : Char) : pyKeep (pyToLower c) = pyKeep c := by
  unfold pyToLower
  by_cases h1 : 65 ≤ c.toNat ∧ c.toNat ≤ 90
  · rw [if_pos h1]
    have ht : (Char.ofNat (c.toNat + 32)).toNat = c.toNat + 32 :=
      char_toNat_ofNat_of_lt (by omega)
    unfold pyKeep pyIsWordChar pyIsAlnum pyIsSpace
    rw [ht, Bool.eq_iff_iff]
    simp only [Bool.or_eq_true, Bool.and_eq_true, decide_eq_true_eq]
    omega
  · rw [if_neg h1]
    by_cases h2 : 1040 ≤ c.toNat ∧ c.toNat ≤ 1071
    · rw [if_pos h2]
      have ht : (Char.ofNat (c.toNat + 32)).toNat = c.toNat + 32 :=
        char_toNat_ofNat_of_lt (by omega)
      unfold pyKeep pyIsWordChar pyIsAlnum pyIsSpace
      rw [ht, Bool.eq_iff_iff]
      simp only [Bool.or_eq_true, Bool.and_eq_true, decide_eq_true_eq]
      omega
    · rw [if_neg h2]
      by_cases h3 : c.toNat = 1025
      · rw [if_pos h3]
        have ht : (Char.ofNat 1105).toNat = 1105 :=
          char_toNat_ofNat_of_lt (by omega)
        unfold pyKeep pyIsWordChar pyIsAlnum pyIsSpace
        rw [ht, h3]
        decide
      · rw [if_neg h3]

/-! ## String helpers

Python string operations used by the pipeline, on `List Char` /
`String`. -/

/-- The cleaning rule of `ConlluToken.get_cleaned`, on character lists:
lower-case the text, then delete every character matching the regex
class complement of word characters and whitespace
(Python `re.sub` of the class complement of word and space, applied to
`text.lower()`). -/
def cleanList (l : List Char) : List Char :=
  (l.map pyToLower).filter pyKeep

/-- Python `sep.join(parts)`. -/
def pyJoin (sep : String) : List String → String
  | [] => ""
  | [a] => a
  | a :: b :: rest => a ++ sep ++ pyJoin sep (b :: rest)

/-- Python substring containment `t in s` on character lists. -/
def containsSub : List Char → List Char → Bool
  | [], t => t.isEmpty
  | s@(_ :: s'), t => t.isPrefixOf s || containsSub s' t

/-- Python `re.sub(re.escape(t), '', s, 1)`: remove the first occurrence
of the literal substring `t` from `s` (no change when `t` does not
occur; no change when `t` is empty). -/
def removeFirst : List Char → List Char → List Char
  | [], _ => []
  | s@(c :: s'), t => if t.isPrefixOf s then s.drop t.length else c :: removeFirst s' t

/-- Does the text contain at least one alphanumeric character
(`any(ch.isalnum() for ch in text)`). -/
def hasAlnum (l : List Char) : Bool :=
  l.any pyIsAlnum

/-- Python `str.strip()`: drop leading and trailing whitespace. -/
def pyStrip (s : String) : String :=
  String.mk (((s.data.dropWhile pyIsSpace).reverse.dropWhile pyIsSpace).reverse)

/-- Python `str.isdigit()` on the modelled repertoire: non-empty and all
ASCII digits. -/
def pyIsDigitStr (s : String) : Bool :=
  !s.data.isEmpty && s.data.all (fun c => 48 ≤ c.toNat && c.toNat ≤ 57)

/-! ## Token and sentence model

Translation of `MorphologicalTokenDTO`, `ConlluToken` and
`ConlluSentence` from `pipeline.py`. -/

/-- `MorphologicalTokenDTO`: lemma, POS and feature tags of one token. -/
structure MorphologicalTokenDTO where
  lemmaText : String
  pos : String
  tags : String
deriving DecidableEq

/-- `MorphologicalTokenDTO.__init__` with its default arguments: all
three fields default to the empty string. -/
def MorphologicalTokenDTO.init : MorphologicalTokenDTO :=
  { lemmaText := "", pos := "", tags := "" }

/-- `ConlluToken`: surface text, morphological parameters, position. -/
structure ConlluToken where
  text : String
  morphological_parameters : MorphologicalTokenDTO
  position : Nat
deriving DecidableEq

/-- `ConlluToken.__init__`: stores the text, a default
`MorphologicalTokenDTO`, and position `0`. -/
def ConlluToken.init (text : String) : ConlluToken :=
  { text := text, morphological_parameters := MorphologicalTokenDTO.init, position := 0 }

/-- `ConlluToken.get_conllu_text`: the ten CONLL-U fields joined by tabs.
The features field holds the tags exactly when morphological tags are
requested and the stored tag string is non-empty (Python truthiness of
the string), and the placeholder otherwise. -/
def ConlluToken.get_conllu_text (t : ConlluToken) (include_morphological_tags : Bool) : String :=
  let feats :=
    if include_morphological_tags && !(t.morphological_parameters.tags == "") then
      t.morphological_parameters.tags
    else "_"
  pyJoin "\t" [toString t.position, t.text, t.morphological_parameters.lemmaText,
    t.morphological_parameters.pos, "_", feats, "0", "root", "_", "_"]

/-- `ConlluToken.get_cleaned`: the lowered text with every character that
is neither a word character nor whitespace removed. -/
def ConlluToken.get_cleaned (t : ConlluToken) : String :=
  String.mk (cleanList t.text.data)

/-- `ConlluSentence`: position, original text, ordered tokens. -/
structure ConlluSentence where
  position : Nat
  text : String
  tokens : List ConlluToken
deriving DecidableEq

/-- `ConlluSentence._format_tokens`: each token's CONLL-U line, joined by
newlines. -/
def ConlluSentence.format_tokens (s : ConlluSentence) (include_morphological_tags : Bool) : String :=
  pyJoin "\n" (s.tokens.map (fun t => t.get_conllu_text include_morphological_tags))

/-- `ConlluSentence.get_conllu_text`: the sentence-id comment line, the
text comment line, then the formatted tokens and a trailing newline
(the Python f-string literal chunks appear verbatim). -/
def ConlluSentence.get_conllu_text (s : ConlluSentence) (include_morphological_tags : Bool) : String :=
  "# sent_id = " ++ toString s.position ++ "\n# text = " ++ s.text ++ "\n" ++
    s.format_tokens include_morphological_tags ++ "\n"

/-! ## Mystem tag converter

Translation of `MystemTagConverter` from `pipeline.py`.  The base class
`TagConverter` lives in `core_utils.article.ud`, outside the sources
under verification; per the specification it supplies the loaded tag
mapping table and the category-name attributes, and a POS code with no
mapping entry fails with `UnknownTagError`. -/

/-- Modelled from the spec: the error taxonomy of the tag converter.
`core_utils.article.ud` (not under `src/`) defines `UnknownTagError`;
the spec states that a POS code extracted from a native tag string that
has no entry in the POS category of the tag mapping table fails with
`UnknownTagError`, carrying the offending category and code.
`noPosCode` models the failure of extracting any uppercase code at all
(outside the spec's domain for `convert_pos`). -/
inductive TagError where
  | unknownTag (category : String) (code : String)
  | noPosCode (tags : String)
deriving DecidableEq

/-- Modelled from the spec: the state of a `MystemTagConverter`.
`TagConverter.__init__` (in `core_utils`, not under `src/`) loads the
tag mapping table, a mapping from category name to a sub-mapping of
analyzer-native code to normalized value, and exposes the category
names as the attributes `pos`, `case`, `number`, `gender`, `animacy`,
`tense` (the attribute `case` is renamed `caseCat` here because `case`
is a Lean keyword). -/
structure MystemTagConverter where
  tag_mapping : String → String → Option String
  pos : String
  caseCat : String
  number : String
  gender : String
  animacy : String
  tense : String

/-- Maximal runs of characters satisfying `p`, accumulator-style;
the first argument is the (reversed) run currently being read. -/
def runsAux (p : Char → Bool) : List Char → List Char → List (List Char)
  | cur, [] => if cur.isEmpty then [] else [cur.reverse]
  | cur, c :: cs =>
    if p c then runsAux p (c :: cur) cs
    else if cur.isEmpty then runsAux p [] cs
    else cur.reverse :: runsAux p [] cs

/-- Is the character a lowercase Cyrillic letter of the range а-я
(the regex class of `re.findall` in `convert_morphological_tags`;
note: the range excludes ё). -/
def isCyrLower (c : Char) : Bool :=
  1072 ≤ c.toNat && c.toNat ≤ 1103

/-- Python `re.findall` of one-or-more lowercase Cyrillic letters: the
maximal runs of such characters in the native tag string. -/
def findallCyr (tags : String) : List String :=
  (runsAux isCyrLower [] tags.data).map String.mk

/-- Is the character an uppercase ASCII letter (the regex class of
`re.search` in `convert_pos`). -/
def isUpperLatin (c : Char) : Bool :=
  65 ≤ c.toNat && c.toNat ≤ 90

/-- Python `re.search` of one-or-more uppercase letters: the first
maximal run of uppercase ASCII letters, if any. -/
def searchUpper : List Char → Option String
  | [] => none
  | c :: cs =>
    if isUpperLatin c then some (String.mk (c :: cs.takeWhile isUpperLatin))
    else searchUpper cs

/-- The body of the inner `for category in (...)` loop of
`convert_morphological_tags`: walk the remaining precedence categories;
at the first category where the code has a mapping entry and no value
has been assigned yet, append the assignment and stop (`break`);
otherwise fall through to the next category. -/
def assignTagAux (cv : MystemTagConverter) (F : List (String × String)) (t : String) :
    List String → List (String × String)
  | [] => F
  | cat :: cats =>
    match cv.tag_mapping cat t with
    | some v => if F.any (fun p => p.1 = cat) then assignTagAux cv F t cats
                else F ++ [(cat, v)]
    | none => assignTagAux cv F t cats

/-- The fixed precedence order of feature categories, as the tuple
`(self.case, self.number, self.gender, self.animacy, self.tense)`. -/
def precedence (cv : MystemTagConverter) : List String :=
  [cv.caseCat, cv.number, cv.gender, cv.animacy, cv.tense]

/-- One step of the outer `for tag in tag_list` loop: try the extracted
code against the precedence categories. -/
def assignTag (cv : MystemTagConverter) (F : List (String × String)) (t : String) :
    List (String × String) :=
  assignTagAux cv F t (precedence cv)

/-- The `format_tags` dictionary after the loops of
`convert_morphological_tags`, as an insertion-ordered association
list. -/
def buildFormatTags (cv : MystemTagConverter) (tags : String) : List (String × String) :=
  (findallCyr tags).foldl (assignTag cv) []

/-- Code-point lexicographic order on character lists (Python string
comparison). -/
def lexLe : List Char → List Char → Bool
  | [], _ => true
  | _ :: _, [] => false
  | a :: as, b :: bs =>
    if a.toNat < b.toNat then true
    else if b.toNat < a.toNat then false
    else lexLe as bs

/-- Python string comparison `a <= b`. -/
def strLe (a b : String) : Bool :=
  lexLe a.data b.data

/-- Insert one pair into a list sorted by key. -/
def insertPair (p : String × String) : List (String × String) → List (String × String)
  | [] => [p]
  | q :: qs => if strLe p.1 q.1 then p :: q :: qs else q :: insertPair p qs

/-- Python `sorted` on the items of `format_tags`: since the keys are
pairwise distinct, sorting the pairs is sorting by category name. -/
def sortPairs (l : List (String × String)) : List (String × String) :=
  l.foldr insertPair []

/-- `MystemTagConverter.convert_morphological_tags`: extract the
lowercase Cyrillic codes, assign each to at most one category following
the precedence order, render the assignments sorted as
pipe-joined category=value pairs. -/
def MystemTagConverter.convert_morphological_tags (cv : MystemTagConverter) (tags : String) :
    String :=
  pyJoin "|" ((sortPairs (buildFormatTags cv tags)).map (fun p => p.1 ++ "=" ++ p.2))

/-- `MystemTagConverter.convert_pos`: extract the first uppercase run
from the native tag string and look it up in the POS category of the
tag mapping table.  Modelled from the spec: the lookup of a missing
code fails with `UnknownTagError` (the lookup is performed by the
mapping structure from `core_utils`, not under `src/`). -/
def MystemTagConverter.convert_pos (cv : MystemTagConverter) (tags : String) :
    Except TagError String :=
  match searchUpper tags.data with
  | none => Except.error (TagError.noPosCode tags)
  | some code =>
    match cv.tag_mapping cv.pos code with
    | some v => Except.ok v
    | none => Except.error (TagError.unknownTag cv.pos code)

/-! ## Alignment engine

Translation of `MorphologicalAnalysisPipeline._process`.  The external
collaborators enter as inputs: `split_by_sentence(text)` as the list of
sentence strings and `self._mystem.analyze(text)` as the list of
analyzer records (the generator `result` consumes this list left to
right, shared across all sentences). -/

/-- One candidate analysis of a Mystem record: lemma (`lex`) and native
tag string (`gr`). -/
structure MystemAnalysis where
  lex : String
  gr : String
deriving DecidableEq

/-- One record of the Mystem stream: surface text and the (possibly
absent or empty, both modelled as the empty list) analysis list. -/
structure AnalyzerRecord where
  text : String
  analysis : List MystemAnalysis
deriving DecidableEq

/-- The inner `for token in result` loop of `_process` for one sentence:
returns the records accepted into the sentence's token group and the
rest of the stream (the records pulled from the generator, including
skipped ones and the record at the `break`, are consumed for good).
As in the source, the membership test and the removal are performed on
the original sentence text each round, not on a running copy. -/
def consumeForSentence (s : List Char) : List AnalyzerRecord →
    List AnalyzerRecord × List AnalyzerRecord
  | [] => ([], [])
  | r :: rs =>
    if containsSub s r.text.data then
      if hasAlnum (removeFirst s r.text.data) then
        let p := consumeForSentence s rs
        ((if hasAlnum r.text.data then r :: p.1 else p.1), p.2)
      else
        ((if hasAlnum r.text.data then [r] else []), rs)
    else
      consumeForSentence s rs

/-- The per-sentence matched token groups (before the synthetic
terminator is appended), with the stream threaded through the
sentences in order. -/
def matchedGroups : List String → List AnalyzerRecord → List (List AnalyzerRecord)
  | [], _ => []
  | s :: ss, recs =>
    let p := consumeForSentence s.data recs
    p.1 :: matchedGroups ss p.2

/-- The synthetic terminal record appended to every sentence's token
group: surface text a period, no analysis. -/
def dotRecord : AnalyzerRecord :=
  { text := ".", analysis := [] }

/-- The fallback POS policy for a record without analysis: `PUNCT` for a
trimmed period, `NUM` for all digits, else `X`. -/
def fallbackPos (text : String) : String :=
  if pyStrip text = "." then "PUNCT"
  else if pyIsDigitStr text then "NUM"
  else "X"

/-- The body of the `for idx_token, token in enumerate(tokens, start=1)`
loop: build one `ConlluToken` at position `n` from one record.  A
record with a non-empty analysis list takes the first candidate's
lemma and its converted POS and tags; otherwise the record's own text
is the lemma, the tags are empty, and the POS follows the fallback
policy.  A POS conversion failure propagates. -/
def buildOne (cv : MystemTagConverter) (n : Nat) (r : AnalyzerRecord) :
    Except TagError ConlluToken :=
  match r.analysis with
  | a :: _ =>
    match cv.convert_pos a.gr with
    | Except.error e => Except.error e
    | Except.ok p =>
      Except.ok { text := r.text,
                  morphological_parameters :=
                    { lemmaText := a.lex, pos := p,
                      tags := cv.convert_morphological_tags a.gr },
                  position := n }
  | [] =>
    Except.ok { text := r.text,
                morphological_parameters :=
                  { lemmaText := r.text, pos := fallbackPos r.text, tags := "" },
                position := n }

/-- Build the `ConlluToken` list of one sentence, positions counted from
`n` (the loop enumerates from 1). -/
def buildTokens (cv : MystemTagConverter) (n : Nat) :
    List AnalyzerRecord → Except TagError (List ConlluToken)
  | [] => Except.ok []
  | r :: rs =>
    match buildOne cv n r with
    | Except.error e => Except.error e
    | Except.ok t =>
      match buildTokens cv (n + 1) rs with
      | Except.error e => Except.error e
      | Except.ok ts => Except.ok (t :: ts)

/-- The sentence loop of `_process`, starting at document-order index
`i`: consume records for the sentence, append the synthetic
terminator, build the tokens, build the `ConlluSentence`. -/
def processFrom (cv : MystemTagConverter) (i : Nat) :
    List String → List AnalyzerRecord → Except TagError (List ConlluSentence)
  | [], _ => Except.ok []
  | s :: ss, recs =>
    let p := consumeForSentence s.data recs
    match buildTokens cv 1 (p.1 ++ [dotRecord]) with
    | Except.error e => Except.error e
    | Except.ok ts =>
      match processFrom cv (i + 1) ss p.2 with
      | Except.error e => Except.error e
      | Except.ok css => Except.ok ({ position := i, text := s, tokens := ts } :: css)

/-- `MorphologicalAnalysisPipeline._process`, with the outputs of the
external collaborators (`split_by_sentence` and `Mystem.analyze`) as
inputs: the sentence loop starting at index 0. -/
def processDoc (cv : MystemTagConverter) (sents : List String) (recs : List AnalyzerRecord) :
    Except TagError (List ConlluSentence) :=
  processFrom cv 0 sents recs

/-! ## Cleaning: C7 and C9 -/

/-- The cleaning rule exactly as the claims C7 and C9 word it: the text
lowercased with every character that is neither alphanumeric nor
whitespace removed (note: underscores are not alphanumeric, so this
rule removes them). -/
def claimCleanedAlnum (s : String) : String :=
  String.mk ((s.data.map pyToLower).filter (fun c => pyIsAlnum c || pyIsSpace c))

theorem cleanList_swap (l : List Char) :
    cleanList l = (l.filter pyKeep).map pyToLower := by
  induction l with
  | nil => rfl
  | cons c l ih =>
    simp only [cleanList, List.map_cons, List.filter_cons] at *
    rw [pyKeep_pyToLower]
    by_cases h : pyKeep c
    · rw [h]; simp only [if_true]; rw [List.map_cons, ih]
    · simp only [Bool.not_eq_true] at h; rw [h]; simp only [if_false, Bool.false_eq_true]
      exact ih

theorem cleanList_idem (l : List Char) : cleanList (cleanList l) = cleanList l := by
  induction l with
  | nil => rfl
  | cons c l ih =>
    simp only [cleanList, List.map_cons, List.filter_cons]
    by_cases h : pyKeep (pyToLower c)
    · rw [h]
      simp only [if_true]
      show cleanList (pyToLower c :: cleanList l) = pyToLower c :: cleanList l
      simp only [cleanList, List.map_cons, List.filter_cons, pyToLower_idem,
        pyKeep_pyToLower, h, if_true]
      exact congrArg _ ih
    · simp only [Bool.not_eq_true] at h; rw [h]
      simp only [if_false, Bool.false_eq_true]
      exact ih

/-- Claim C7, corrected.  `get_cleaned` returns the token's surface text
with every character that is neither a word character (alphanumeric or
underscore) nor whitespace removed, and the kept characters
lowercased; nothing else changes.  (The claim as stated, with plain
"alphanumeric", fails on underscores, which the source's word-character
class keeps: see the counterexample.) -/
theorem c7_get_cleaned_amended (t : ConlluToken) :
    t.get_cleaned = String.mk ((t.text.data.filter pyKeep).map pyToLower) := by
  unfold ConlluToken.get_cleaned
  rw [cleanList_swap]

/-- Counterexample to claim C7 as stated: for the token with surface
text an underscore, `get_cleaned` keeps the underscore (it is a word
character), while the claimed rule (remove everything that is neither
alphanumeric nor whitespace) deletes it. -/
theorem c7_counterexample :
    (ConlluToken.init "_").get_cleaned = "_" ∧
    claimCleanedAlnum (ConlluToken.init "_").text = "" ∧
    (ConlluToken.init "_").get_cleaned ≠ claimCleanedAlnum (ConlluToken.init "_").text := by
  refine ⟨by decide, by decide, by decide⟩

/-- Claim C9, corrected.  Cleaning is idempotent for the rule the source
actually applies: feeding the string returned by `get_cleaned` through
the same rule (lowercase, remove every character that is neither a word
character nor whitespace) returns it unchanged.  (With the claim's own
statement of the rule — plain "alphanumeric" — idempotence fails on
underscores: see the counterexample.) -/
theorem c9_cleaning_idempotent_amended (t : ConlluToken) :
    (ConlluToken.init t.get_cleaned).get_cleaned = t.get_cleaned := by
  unfold ConlluToken.get_cleaned ConlluToken.init
  exact String.ext (cleanList_idem t.text.data)

/-- Counterexample to claim C9 as stated: applying the claimed cleaning
rule (lowercase, remove every character that is neither alphanumeric
nor whitespace) to the string `get_cleaned` returns for the underscore
token does not yield that same string. -/
theorem c9_counterexample :
    claimCleanedAlnum ((ConlluToken.init "_").get_cleaned) ≠
      (ConlluToken.init "_").get_cleaned := by
  decide

/-! ## Rendering: C8 and C10 -/

theorem pyJoin_ten (sep a b c d e f g h i j : String) :
    pyJoin sep [a, b, c, d, e, f, g, h, i, j] =
      a ++ sep ++ b ++ sep ++ c ++ sep ++ d ++ sep ++ e ++ sep ++ f ++ sep ++ g ++
        sep ++ h ++ sep ++ i ++ sep ++ j := by
  simp [pyJoin, String.append_assoc]

/-- The CONLL-U token line as the spec and claim C8 word it: the ten
fields position, surface text, lemma, POS, placeholder,
features-or-placeholder, head 0, relation root, and two placeholders,
joined by tabs, with the placeholder in the features field whenever the
flag is false or the features string is empty. -/
def specTokenLine (t : ConlluToken) (includeFeatures : Bool) : String :=
  toString t.position ++ "\t" ++ t.text ++ "\t" ++ t.morphological_parameters.lemmaText ++
    "\t" ++ t.morphological_parameters.pos ++ "\t" ++ "_" ++ "\t" ++
    (if includeFeatures = false ∨ t.morphological_parameters.tags = "" then "_"
     else t.morphological_parameters.tags) ++
    "\t" ++ "0" ++ "\t" ++ "root" ++ "\t" ++ "_" ++ "\t" ++ "_"

/-- The sentence block as the spec and claim C8 word it: a sent_id
comment with the sentence position, a newline, a text comment with the
original text, a newline, the token lines joined by newlines, and a
trailing newline. -/
def specSentenceBlock (s : ConlluSentence) (includeFeatures : Bool) : String :=
  "# sent_id = " ++ toString s.position ++ "\n" ++ "# text = " ++ s.text ++ "\n" ++
    pyJoin "\n" (s.tokens.map (fun t => t.get_conllu_text includeFeatures)) ++ "\n"

/-- Claim C8, confirmed.  For every token and flag value, the rendered
CONLL-U line is exactly the ten specified fields joined by tabs with
the placeholder in the features field whenever the flag is false or
the features string is empty; and every sentence's CONLL-U block is
the sent_id comment, the text comment, the newline-joined token lines
and a trailing newline. -/
theorem c8_conllu_format (t : ConlluToken) (s : ConlluSentence) (flag : Bool) :
    t.get_conllu_text flag = specTokenLine t flag ∧
    s.get_conllu_text flag = specSentenceBlock s flag := by
  constructor
  · unfold ConlluToken.get_conllu_text specTokenLine
    rw [pyJoin_ten]
    have hfeats : (if flag && !(t.morphological_parameters.tags == "") then
        t.morphological_parameters.tags else "_") =
        (if flag = false ∨ t.morphological_parameters.tags = "" then "_"
         else t.morphological_parameters.tags) := by
      cases flag
      · simp
      · by_cases h : t.morphological_parameters.tags = ""
        · simp [h]
        · simp [h]
    rw [hfeats]
  · unfold ConlluSentence.get_conllu_text specSentenceBlock ConlluSentence.format_tokens
    rw [show ("\n# text = " : String) = "\n" ++ "# text = " from rfl]
    simp [String.append_assoc]

/-- Claim C10, confirmed.  A freshly constructed token has position 0
and empty lemma, POS and tags; rendering it before the morphology and
position are assigned yields a line whose position field is the digit
zero and whose lemma and POS fields are empty — outside the spec's
1-based, fully-populated domain. -/
theorem c10_fresh_token (text : String) (flag : Bool) :
    (ConlluToken.init text).position = 0 ∧
    (ConlluToken.init text).morphological_parameters =
      { lemmaText := "", pos := "", tags := "" } ∧
    (ConlluToken.init text).get_conllu_text flag =
      "0" ++ "\t" ++ text ++ "\t" ++ "" ++ "\t" ++ "" ++ "\t" ++ "_" ++ "\t" ++ "_" ++
        "\t" ++ "0" ++ "\t" ++ "root" ++ "\t" ++ "_" ++ "\t" ++ "_" := by
  refine ⟨rfl, rfl, ?_⟩
  have h0 : toString (0 : Nat) = "0" := rfl
  cases flag <;>
    simp [ConlluToken.get_conllu_text, ConlluToken.init, MorphologicalTokenDTO.init,
      pyJoin_ten, h0]

/-! ## Token building lemmas -/

theorem buildOne_pos (cv : MystemTagConverter) (n : Nat) (r : AnalyzerRecord)
    (t : ConlluToken) (h : buildOne cv n r = Except.ok t) : t.position = n := by
  unfold buildOne at h
  split at h
  · split at h
    · exact absurd h (by simp)
    · injection h with h2; rw [← h2]
  · injection h with h2; rw [← h2]

theorem buildTokens_ok_pos (cv : MystemTagConverter) :
    ∀ (recs : List AnalyzerRecord) (n : Nat) (ts : List ConlluToken),
      buildTokens cv n recs = Except.ok ts →
      ts.length = recs.length ∧
        ∀ (i : Nat) (h : i < ts.length), (ts.get ⟨i, h⟩).position = n + i := by
  intro recs
  induction recs with
  | nil =>
    intro n ts h
    simp only [buildTokens] at h
    injection h with h2
    subst h2
    exact ⟨rfl, fun i hi => absurd hi (by simp)⟩
  | cons r rs ih =>
    intro n ts h
    simp only [buildTokens] at h
    split at h
    · exact absurd h (by simp)
    · rename_i t hb
      split at h
      · exact absurd h (by simp)
      · rename_i ts' hrest
        injection h with h2
        subst h2
        obtain ⟨hlen, hpos⟩ := ih (n + 1) ts' hrest
        refine ⟨by simp [hlen], ?_⟩
        intro i hi
        cases i with
        | zero =>
          show t.position = n + 0
          rw [buildOne_pos cv n r t hb]
          rfl
        | succ j =>
          have hj : j < ts'.length := by
            simpa using Nat.lt_of_succ_lt_succ hi
          show (ts'.get ⟨j, hj⟩).position = n + (j + 1)
          rw [hpos j hj]
          omega

theorem buildTokens_append_last (cv : MystemTagConverter) (r : AnalyzerRecord) :
    ∀ (rs : List AnalyzerRecord) (n : Nat) (ts : List ConlluToken),
      buildTokens cv n (rs ++ [r]) = Except.ok ts →
      ∃ ts' t, ts = ts' ++ [t] ∧ buildOne cv (n + rs.length) r = Except.ok t := by
  intro rs
  induction rs with
  | nil =>
    intro n ts h
    simp only [List.nil_append, buildTokens] at h
    split at h
    · exact absurd h (by simp)
    · rename_i t hb
      injection h with h2
      subst h2
      exact ⟨[], t, rfl, by simpa using hb⟩
  | cons q qs ih =>
    intro n ts h
    simp only [List.cons_append, buildTokens] at h
    split at h
    · exact absurd h (by simp)
    · rename_i t hb
      split at h
      · exact absurd h (by simp)
      · rename_i ts' hrest
        injection h with h2
        subst h2
        obtain ⟨ts'', t', heq, hone⟩ := ih (n + 1) ts' hrest
        refine ⟨t :: ts'', t', by rw [heq]; rfl, ?_⟩
        rw [← hone]
        congr 1
        simp
        omega

theorem processFrom_ok_tokens (cv : MystemTagConverter) :
    ∀ (sents : List String) (i : Nat) (recs : List AnalyzerRecord)
      (css : List ConlluSentence),
      processFrom cv i sents recs = Except.ok css →
      ∀ cs ∈ css, ∃ g, buildTokens cv 1 (g ++ [dotRecord]) = Except.ok cs.tokens := by
  intro sents
  induction sents with
  | nil =>
    intro i recs css h cs hcs
    simp only [processFrom] at h
    injection h with h2
    subst h2
    exact absurd hcs (by simp)
  | cons s ss ih =>
    intro i recs css h cs hcs
    simp only [processFrom] at h
    split at h
    · exact absurd h (by simp)
    · rename_i ts hb
      split at h
      · exact absurd h (by simp)
      · rename_i css' hrest
        injection h with h2
        subst h2
        rcases List.mem_cons.mp hcs with hcs1 | hcs2
        · subst hcs1
          exact ⟨(consumeForSentence s.data recs).1, hb⟩
        · exact ih (i + 1) (consumeForSentence s.data recs).2 css' hrest cs hcs2

/-! ## Claims C5 and C4 -/

/-- Claim C5, confirmed.  Within every sentence produced by the
pipeline, token positions start at 1 and increase by exactly 1 with no
gaps: the i-th token (0-based) of a sentence's token list has position
i + 1. -/
theorem c5_positions (cv : MystemTagConverter) (sents : List String)
    (recs : List AnalyzerRecord) (css : List ConlluSentence)
    (h : processDoc cv sents recs = Except.ok css) :
    ∀ cs ∈ css, ∀ (i : Nat) (hi : i < cs.tokens.length),
      (cs.tokens.get ⟨i, hi⟩).position = i + 1 := by
  intro cs hcs i hi
  obtain ⟨g, hg⟩ := processFrom_ok_tokens cv sents 0 recs css h cs hcs
  obtain ⟨_, hpos⟩ := buildTokens_ok_pos cv (g ++ [dotRecord]) 1 cs.tokens hg
  rw [hpos i hi]
  omega

/-- A converter with an empty mapping table, used to instantiate the
claims on concrete documents. -/
def cvW : MystemTagConverter :=
  { tag_mapping := fun _ _ => none, pos := "POS", caseCat := "Case",
    number := "Number", gender := "Gender", animacy := "Animacy", tense := "Tense" }

/-- The sentence produced for the one-sentence document with text
"ab." and the single unanalyzed record "ab". -/
def csW : ConlluSentence :=
  { position := 0, text := "ab.",
    tokens := [{ text := "ab",
                 morphological_parameters := { lemmaText := "ab", pos := "X", tags := "" },
                 position := 1 },
               { text := ".",
                 morphological_parameters := { lemmaText := ".", pos := "PUNCT", tags := "" },
                 position := 2 }] }

/-- Witness for claim C5 at a concrete document. -/
theorem c5_positions_witness :
    processDoc cvW ["ab."] [{ text := "ab", analysis := [] }] = Except.ok [csW] ∧
    (csW.tokens.get ⟨0, by decide⟩).position = 0 + 1 ∧
    (csW.tokens.get ⟨1, by decide⟩).position = 1 + 1 := by
  refine ⟨rfl, ?_, ?_⟩
  · exact c5_positions cvW ["ab."] [{ text := "ab", analysis := [] }] [csW] rfl
      csW (by simp) 0 (by decide)
  · exact c5_positions cvW ["ab."] [{ text := "ab", analysis := [] }] [csW] rfl
      csW (by simp) 1 (by decide)

/-- Claim C4, confirmed.  Every sentence produced by the alignment has a
non-empty token list ending in the synthetic terminal token: surface
text a period, lemma a period, POS PUNCT, empty tags — including
sentences for which the analyzer stream was exhausted and zero records
were matched. -/
theorem c4_terminal_token (cv : MystemTagConverter) (sents : List String)
    (recs : List AnalyzerRecord) (css : List ConlluSentence)
    (h : processDoc cv sents recs = Except.ok css) :
    ∀ cs ∈ css, cs.tokens ≠ [] ∧
      ∃ pre t, cs.tokens = pre ++ [t] ∧ t.text = "." ∧
        t.morphological_parameters =
          { lemmaText := ".", pos := "PUNCT", tags := "" } := by
  intro cs hcs
  obtain ⟨g, hg⟩ := processFrom_ok_tokens cv sents 0 recs css h cs hcs
  obtain ⟨pre, t, heq, hone⟩ := buildTokens_append_last cv dotRecord g 1 cs.tokens hg
  have ht : t = { text := ".",
                  morphological_parameters := { lemmaText := ".", pos := "PUNCT", tags := "" },
                  position := 1 + g.length } := by
    have : buildOne cv (1 + g.length) dotRecord =
        Except.ok { text := ".",
                    morphological_parameters :=
                      { lemmaText := ".", pos := "PUNCT", tags := "" },
                    position := 1 + g.length } := rfl
    rw [this] at hone
    injection hone with h2
    exact h2.symm
  subst ht
  exact ⟨by rw [heq]; simp, pre, _, heq, rfl, rfl⟩

/-- The sentence produced for the one-sentence document with text
"xy." and an already exhausted analyzer stream. -/
def csW2 : ConlluSentence :=
  { position := 0, text := "xy.",
    tokens := [{ text := ".",
                 morphological_parameters := { lemmaText := ".", pos := "PUNCT", tags := "" },
                 position := 1 }] }

/-- Witness for claim C4 at a concrete document whose analyzer stream is
already exhausted: the sentence still gets exactly the synthetic
terminator. -/
theorem c4_terminal_token_witness :
    processDoc cvW ["xy."] [] = Except.ok [csW2] ∧ csW2.tokens ≠ [] := by
  refine ⟨rfl, ?_⟩
  exact (c4_terminal_token cvW ["xy."] [] [csW2] rfl csW2 (by simp)).1

/-! ## Claim C3: unknown POS codes -/

theorem buildOne_ok_conversion (cv : MystemTagConverter) (n : Nat) (rtext : String)
    (a : MystemAnalysis) (as : List MystemAnalysis) (t : ConlluToken)
    (hb : buildOne cv n { text := rtext, analysis := a :: as } = Except.ok t) :
    ∃ p, cv.convert_pos a.gr = Except.ok p := by
  have hb' : (match cv.convert_pos a.gr with
      | Except.error e => (Except.error e : Except TagError ConlluToken)
      | Except.ok p =>
        Except.ok { text := rtext,
                    morphological_parameters :=
                      { lemmaText := a.lex, pos := p,
                        tags := cv.convert_morphological_tags a.gr },
                    position := n }) = Except.ok t := hb
  cases hp : cv.convert_pos a.gr with
  | error e => rw [hp] at hb'; exact absurd hb' (by simp)
  | ok p => exact ⟨p, rfl⟩

theorem buildTokens_ok_conversions (cv : MystemTagConverter) :
    ∀ (recs : List AnalyzerRecord) (n : Nat) (ts : List ConlluToken),
      buildTokens cv n recs = Except.ok ts →
      ∀ r ∈ recs, ∀ (a : MystemAnalysis) (as : List MystemAnalysis),
        r.analysis = a :: as → ∃ p, cv.convert_pos a.gr = Except.ok p := by
  intro recs
  induction recs with
  | nil =>
    intro n ts _ r hr
    exact absurd hr (by simp)
  | cons q qs ih =>
    intro n ts h r hr a as hra
    simp only [buildTokens] at h
    split at h
    · exact absurd h (by simp)
    · rename_i t hb
      split at h
      · exact absurd h (by simp)
      · rename_i ts' hrest
        rcases List.mem_cons.mp hr with hq | hqs
        · subst hq
          obtain ⟨rt, ran⟩ := r
          have hran : ran = a :: as := hra
          subst hran
          exact buildOne_ok_conversion cv n rt a as t hb
        · exact ih (n + 1) ts' hrest r hqs a as hra

theorem processFrom_ok_groups (cv : MystemTagConverter) :
    ∀ (sents : List String) (i : Nat) (recs : List AnalyzerRecord)
      (css : List ConlluSentence),
      processFrom cv i sents recs = Except.ok css →
      ∀ g ∈ matchedGroups sents recs,
        ∃ ts, buildTokens cv 1 (g ++ [dotRecord]) = Except.ok ts := by
  intro sents
  induction sents with
  | nil =>
    intro i recs css _ g hg
    exact absurd hg (by simp [matchedGroups])
  | cons s ss ih =>
    intro i recs css h g hg
    simp only [processFrom] at h
    split at h
    · exact absurd h (by simp)
    · rename_i ts hb
      split at h
      · exact absurd h (by simp)
      · rename_i css' hrest
        simp only [matchedGroups] at hg
        rcases List.mem_cons.mp hg with hg1 | hg2
        · subst hg1
          exact ⟨ts, hb⟩
        · exact ih (i + 1) (consumeForSentence s.data recs).2 css' hrest g hg2

/-- Claim C3, confirmed (the mapping lookup is modelled from the spec,
see `TagError`).  A native tag string whose extracted uppercase POS
code has no entry in the POS category of the tag mapping table makes
`convert_pos` fail with `UnknownTagError` — that exact error, no other
— and a document one of whose aligned records carries such a tag
string can never process successfully: the error aborts the document
instead of dropping or mis-tagging the token. -/
theorem c3_unknown_tag (cv : MystemTagConverter) (tags code : String)
    (hx : searchUpper tags.data = some code)
    (hm : cv.tag_mapping cv.pos code = none) :
    cv.convert_pos tags = Except.error (TagError.unknownTag cv.pos code) ∧
    ∀ (sents : List String) (recs : List AnalyzerRecord) (css : List ConlluSentence),
      processDoc cv sents recs = Except.ok css →
      ∀ g ∈ matchedGroups sents recs, ∀ r ∈ g,
        ∀ (a : MystemAnalysis) (as : List MystemAnalysis),
          r.analysis = a :: as → a.gr ≠ tags := by
  have herr : cv.convert_pos tags = Except.error (TagError.unknownTag cv.pos code) := by
    unfold MystemTagConverter.convert_pos
    rw [hx]
    show (match cv.tag_mapping cv.pos code with
      | some v => Except.ok v
      | none => Except.error (TagError.unknownTag cv.pos code)) = _
    rw [hm]
  refine ⟨herr, ?_⟩
  intro sents recs css h g hg r hr a as hra habs
  obtain ⟨ts, hts⟩ := processFrom_ok_groups cv sents 0 recs css h g hg
  obtain ⟨p, hp⟩ := buildTokens_ok_conversions cv (g ++ [dotRecord]) 1 ts hts r
    (List.mem_append_left _ hr) a as hra
  rw [habs, herr] at hp
  exact Except.noConfusion hp

/-- Witness for claim C3: the empty-table converter rejects the POS code
QQ with exactly `UnknownTagError`. -/
theorem c3_unknown_tag_witness :
    searchUpper ("QQ".data) = some "QQ" ∧
    cvW.tag_mapping cvW.pos "QQ" = none ∧
    cvW.convert_pos "QQ" = Except.error (TagError.unknownTag "POS" "QQ") :=
  ⟨rfl, rfl, (c3_unknown_tag cvW "QQ" "QQ" rfl rfl).1⟩

/-! ## Claim C6: morphological tag conversion -/

theorem lexLe_total : ∀ a b : List Char, lexLe a b = true ∨ lexLe b a = true := by
  intro a
  induction a with
  | nil => intro b; left; rfl
  | cons x xs ih =>
    intro b
    cases b with
    | nil => right; rfl
    | cons y ys =>
      by_cases h1 : x.toNat < y.toNat
      · left; simp [lexLe, h1]
      · by_cases h2 : y.toNat < x.toNat
        · right; simp [lexLe, h2]
        · rcases ih ys with h | h
          · left; simp [lexLe, h1, h2, h]
          · right; simp [lexLe, h1, h2, h]

theorem lexLe_trans : ∀ a b c : List Char,
    lexLe a b = true → lexLe b c = true → lexLe a c = true := by
  intro a
  induction a with
  | nil => intro b c _ _; rfl
  | cons x xs ih =>
    intro b c hab hbc
    cases b with
    | nil => simp [lexLe] at hab
    | cons y ys =>
      cases c with
      | nil => simp [lexLe] at hbc
      | cons z zs =>
        simp only [lexLe] at hab hbc ⊢
        by_cases hxy : x.toNat < y.toNat
        · rw [if_pos hxy] at hab
          by_cases hyz : y.toNat < z.toNat
          · rw [if_pos (show x.toNat < z.toNat by omega)]
          · by_cases hzy : z.toNat < y.toNat
            · rw [if_neg hyz, if_pos hzy] at hbc; exact absurd hbc (by simp)
            · rw [if_pos (show x.toNat < z.toNat by omega)]
        · by_cases hyx : y.toNat < x.toNat
          · rw [if_neg hxy, if_pos hyx] at hab; exact absurd hab (by simp)
          · rw [if_neg hxy, if_neg hyx] at hab
            by_cases hyz : y.toNat < z.toNat
            · rw [if_pos (show x.toNat < z.toNat by omega)]
            · by_cases hzy : z.toNat < y.toNat
              · rw [if_neg hyz, if_pos hzy] at hbc; exact absurd hbc (by simp)
              · rw [if_neg hyz, if_neg hzy] at hbc
                rw [if_neg (show ¬x.toNat < z.toNat by omega),
                  if_neg (show ¬z.toNat < x.toNat by omega)]
                exact ih ys zs hab hbc

theorem strLe_total (a b : String) : strLe a b = true ∨ strLe b a = true :=
  lexLe_total a.data b.data

theorem strLe_trans (a b c : String) (h1 : strLe a b = true) (h2 : strLe b c = true) :
    strLe a c = true :=
  lexLe_trans a.data b.data c.data h1 h2

theorem mem_insertPair (p : String × String) :
    ∀ (l : List (String × String)) (q : String × String),
      q ∈ insertPair p l ↔ q = p ∨ q ∈ l := by
  intro l
  induction l with
  | nil => intro q; simp [insertPair]
  | cons r rs ih =>
    intro q
    simp only [insertPair]
    by_cases h : strLe p.1 r.1 = true
    · rw [if_pos h]
      simp only [List.mem_cons]
    · rw [if_neg h]
      simp only [List.mem_cons, ih]
      tauto

theorem pairwise_insertPair (p : String × String) :
    ∀ (l : List (String × String)),
      l.Pairwise (fun a b => strLe a.1 b.1 = true) →
      (insertPair p l).Pairwise (fun a b => strLe a.1 b.1 = true) := by
  intro l
  induction l with
  | nil => intro _; simp [insertPair]
  | cons q qs ih =>
    intro hl
    rcases List.pairwise_cons.mp hl with ⟨hq, hqs⟩
    simp only [insertPair]
    by_cases h : strLe p.1 q.1 = true
    · rw [if_pos h]
      refine List.pairwise_cons.mpr ⟨?_, hl⟩
      intro r hr
      rcases List.mem_cons.mp hr with hr1 | hr2
      · rw [hr1]; exact h
      · exact strLe_trans _ _ _ h (hq r hr2)
    · rw [if_neg h]
      refine List.pairwise_cons.mpr ⟨?_, ih hqs⟩
      intro r hr
      rcases (mem_insertPair p qs r).mp hr with hr1 | hr2
      · rw [hr1]
        rcases strLe_total p.1 q.1 with ht | ht
        · exact absurd ht h
        · exact ht
      · exact hq r hr2

theorem sortPairs_sorted (l : List (String × String)) :
    (sortPairs l).Pairwise (fun a b => strLe a.1 b.1 = true) := by
  induction l with
  | nil => simp [sortPairs]
  | cons p ps ih =>
    simp only [sortPairs, List.foldr_cons]
    exact pairwise_insertPair p _ ih

theorem assignTagAux_keys_nodup (cv : MystemTagConverter) (t : String) :
    ∀ (cats : List String) (F : List (String × String)),
      (F.map Prod.fst).Nodup → ((assignTagAux cv F t cats).map Prod.fst).Nodup := by
  intro cats
  induction cats with
  | nil => intro F h; exact h
  | cons cat cats ih =>
    intro F h
    cases hm : cv.tag_mapping cat t with
    | none =>
      simp only [assignTagAux, hm]
      exact ih F h
    | some v =>
      simp only [assignTagAux, hm]
      by_cases hF : F.any (fun p => p.1 = cat) = true
      · rw [if_pos hF]; exact ih F h
      · rw [if_neg hF, List.map_append, List.nodup_append]
        refine ⟨h, by simp, ?_⟩
        intro x hx hx'
        have hxcat : x = cat := by simpa using hx'
        subst hxcat
        rcases List.mem_map.mp hx with ⟨p, hp, hp1⟩
        exact hF (List.any_eq_true.mpr ⟨p, hp, by simp [hp1]⟩)

theorem buildFormatTags_keys_nodup_aux (cv : MystemTagConverter) :
    ∀ (L : List String) (F : List (String × String)),
      (F.map Prod.fst).Nodup → ((L.foldl (assignTag cv) F).map Prod.fst).Nodup := by
  intro L
  induction L with
  | nil => intro F h; exact h
  | cons t L ih =>
    intro F h
    simp only [List.foldl_cons]
    exact ih (assignTag cv F t) (assignTagAux_keys_nodup cv t (precedence cv) F h)

/-- The earliest category of the precedence order in which the code has
a mapping entry and to which no value has been assigned yet — the
category claim C6 says an extracted code is assigned to. -/
def firstAvailCat (cv : MystemTagConverter) (F : List (String × String)) (t : String) :
    Option String :=
  (precedence cv).find? (fun cat =>
    (cv.tag_mapping cat t).isSome && !(F.any (fun p => p.1 = cat)))

theorem assignTagAux_find_char (cv : MystemTagConverter) (t : String) :
    ∀ (cats : List String) (F : List (String × String)),
      (cats.find? (fun cat =>
          (cv.tag_mapping cat t).isSome && !(F.any (fun p => p.1 = cat))) = none →
        assignTagAux cv F t cats = F) ∧
      (∀ cat v,
        cats.find? (fun cat =>
          (cv.tag_mapping cat t).isSome && !(F.any (fun p => p.1 = cat))) = some cat →
        cv.tag_mapping cat t = some v →
        assignTagAux cv F t cats = F ++ [(cat, v)]) := by
  intro cats
  induction cats with
  | nil =>
    intro F
    exact ⟨fun _ => rfl, fun cat v hfind _ => absurd hfind (by simp)⟩
  | cons c cats ih =>
    intro F
    cases hm : cv.tag_mapping c t with
    | none =>
      have hpred : ((cv.tag_mapping c t).isSome && !(F.any (fun p => p.1 = c))) = false := by
        rw [hm]
        rfl
      constructor
      · intro hfind
        simp only [List.find?, hpred] at hfind
        simp only [assignTagAux, hm]
        exact (ih F).1 hfind
      · intro cat v hfind hv
        simp only [List.find?, hpred] at hfind
        simp only [assignTagAux, hm]
        exact (ih F).2 cat v hfind hv
    | some v0 =>
      by_cases hF : F.any (fun p => p.1 = c) = true
      · have hpred : ((cv.tag_mapping c t).isSome && !(F.any (fun p => p.1 = c))) = false := by
          rw [hm, hF]
          rfl
        constructor
        · intro hfind
          simp only [List.find?, hpred] at hfind
          simp only [assignTagAux, hm]
          rw [if_pos hF]
          exact (ih F).1 hfind
        · intro cat v hfind hv
          simp only [List.find?, hpred] at hfind
          simp only [assignTagAux, hm]
          rw [if_pos hF]
          exact (ih F).2 cat v hfind hv
      · have hF' : F.any (fun p => p.1 = c) = false := by
          rw [Bool.not_eq_true] at hF
          exact hF
        have hpred : ((cv.tag_mapping c t).isSome && !(F.any (fun p => p.1 = c))) = true := by
          rw [hm, hF']
          rfl
        constructor
        · intro hfind
          simp only [List.find?, hpred] at hfind
          exact absurd hfind (by simp)
        · intro cat v hfind hv
          simp only [List.find?, hpred] at hfind
          injection hfind with hcat
          subst hcat
          rw [hm] at hv
          injection hv with hv0
          subst hv0
          simp only [assignTagAux, hm]
          rw [if_neg hF]

/-- Claim C6, confirmed.  `convert_morphological_tags` assigns at most
one value per category (the assignment keys are pairwise distinct); an
extracted code is assigned to the earliest category of the precedence
order (case, number, gender, animacy, tense) in which it is mapped and
which is still unassigned, and is silently dropped when there is no
such category; and the output is the assigned pairs rendered as
category=value, pipe-joined, sorted alphabetically by category name,
empty when nothing was assigned. -/
theorem c6_convert_morphological_tags (cv : MystemTagConverter) (tags : String) :
    ((buildFormatTags cv tags).map Prod.fst).Nodup ∧
    (∀ (F : List (String × String)) (t : String),
      (firstAvailCat cv F t = none → assignTag cv F t = F) ∧
      (∀ cat v, firstAvailCat cv F t = some cat → cv.tag_mapping cat t = some v →
        assignTag cv F t = F ++ [(cat, v)])) ∧
    (sortPairs (buildFormatTags cv tags)).Pairwise (fun a b => strLe a.1 b.1 = true) ∧
    cv.convert_morphological_tags tags =
      pyJoin "|" ((sortPairs (buildFormatTags cv tags)).map (fun p => p.1 ++ "=" ++ p.2)) ∧
    (buildFormatTags cv tags = [] → cv.convert_morphological_tags tags = "") := by
  refine ⟨?_, ?_, sortPairs_sorted _, rfl, ?_⟩
  · exact buildFormatTags_keys_nodup_aux cv (findallCyr tags) [] (by simp)
  · intro F t
    exact assignTagAux_find_char cv t (precedence cv) F
  · intro hempty
    unfold MystemTagConverter.convert_morphological_tags
    rw [hempty]
    rfl

/-- A converter with the code for dual number mapped in both the case
and the gender category, to instantiate the ambiguity rule of C6. -/
def cvM : MystemTagConverter :=
  { tag_mapping := fun cat code =>
      if cat = "Case" then
        (if code = "им" then some "Nom" else if code = "дв" then some "Acc" else none)
      else if cat = "Gender" then
        (if code = "муж" then some "Masc" else if code = "дв" then some "Fem" else none)
      else none,
    pos := "POS", caseCat := "Case", number := "Number", gender := "Gender",
    animacy := "Animacy", tense := "Tense" }

/-- Witness for claim C6: the ambiguous code is assigned to the case
category first; once case is taken, its second occurrence falls through
to gender; the rendered output is sorted and pipe-joined. -/
theorem c6_convert_morphological_tags_witness :
    firstAvailCat cvM [] "дв" = some "Case" ∧
    cvM.tag_mapping "Case" "дв" = some "Acc" ∧
    assignTag cvM [] "дв" = [("Case", "Acc")] ∧
    firstAvailCat cvM [("Case", "Acc")] "дв" = some "Gender" ∧
    assignTag cvM [("Case", "Acc")] "дв" = [("Case", "Acc"), ("Gender", "Fem")] ∧
    cvM.convert_morphological_tags "дв,дв" = "Case=Acc|Gender=Fem" := by
  refine ⟨rfl, rfl, ?_, rfl, ?_, rfl⟩
  · exact ((c6_convert_morphological_tags cvM "дв,дв").2.1 [] "дв").2 "Case" "Acc" rfl rfl
  · exact ((c6_convert_morphological_tags cvM "дв,дв").2.1 [("Case", "Acc")] "дв").2
      "Gender" "Fem" rfl rfl

/-! ## Claim C1: stream consumption -/

theorem consumeForSentence_suffix (s : List Char) :
    ∀ (rs : List AnalyzerRecord), ∃ n,
      (consumeForSentence s rs).2 = rs.drop n ∧
      ((consumeForSentence s rs).1).Sublist (rs.take n) := by
  intro rs
  induction rs with
  | nil => exact ⟨0, rfl, List.Sublist.refl []⟩
  | cons r rs ih =>
    obtain ⟨n, h2, h1⟩ := ih
    by_cases hc : containsSub s r.text.data = true
    · by_cases hb : hasAlnum (removeFirst s r.text.data) = true
      · refine ⟨n + 1, ?_, ?_⟩
        · simp only [consumeForSentence, if_pos hc, if_pos hb, List.drop_succ_cons]
          exact h2
        · simp only [consumeForSentence, if_pos hc, if_pos hb, List.take_succ_cons]
          by_cases ha : hasAlnum r.text.data = true
          · rw [if_pos ha]
            exact List.Sublist.cons₂ r h1
          · rw [if_neg ha]
            exact List.Sublist.cons r h1
      · refine ⟨1, ?_, ?_⟩
        · simp only [consumeForSentence, if_pos hc, if_neg hb, List.drop_succ_cons,
            List.drop_zero]
        · simp only [consumeForSentence, if_pos hc, if_neg hb, List.take_succ_cons,
            List.take_zero]
          by_cases ha : hasAlnum r.text.data = true
          · rw [if_pos ha]
          · rw [if_neg ha]
            exact List.nil_sublist [r]
    · refine ⟨n + 1, ?_, ?_⟩
      · simp only [consumeForSentence, if_neg hc, List.drop_succ_cons]
        exact h2
      · simp only [consumeForSentence, if_neg hc, List.take_succ_cons]
        exact List.Sublist.cons r h1

theorem matchedGroups_join_sublist :
    ∀ (sents : List String) (recs : List AnalyzerRecord),
      (List.flatten (matchedGroups sents recs)).Sublist recs := by
  intro sents
  induction sents with
  | nil => intro recs; exact List.nil_sublist recs
  | cons s ss ih =>
    intro recs
    simp only [matchedGroups, List.flatten]
    obtain ⟨n, h2, h1⟩ := consumeForSentence_suffix s.data recs
    rw [h2]
    have hs := List.Sublist.append h1 (ih (recs.drop n))
    rw [List.take_append_drop n recs] at hs
    exact hs

/-- Claim C1, corrected.  The analyzer stream is consumed exactly once,
left to right, shared across all sentences: aligning one sentence
leaves a suffix of the input stream for the following sentences, the
sentence's matched tokens are an in-order selection from the consumed
prefix, and the concatenation of all sentences' matched groups is an
in-order selection from the whole stream (no record is ever matched
twice or out of order).  A record whose surface text does not occur in
the current sentence's text is skipped, but — contrary to the claim as
stated — it is consumed with the rest of the pulled prefix and
discarded, not left for a later sentence: see the counterexample. -/
theorem c1_stream_consumed_once :
    (∀ (s : List Char) (rs : List AnalyzerRecord), ∃ n,
       (consumeForSentence s rs).2 = rs.drop n ∧
       ((consumeForSentence s rs).1).Sublist (rs.take n)) ∧
    (∀ (sents : List String) (recs : List AnalyzerRecord),
       (List.flatten (matchedGroups sents recs)).Sublist recs) :=
  ⟨consumeForSentence_suffix, matchedGroups_join_sublist⟩

/-- The analyzer stream for the two-sentence document "ab cd. ef.":
the records of sentence one, then those of sentence two. -/
def recsC1 : List AnalyzerRecord :=
  [{ text := "ab", analysis := [] }, { text := " ", analysis := [] },
   { text := "cd", analysis := [] }, { text := ".", analysis := [] },
   { text := " ", analysis := [] }, { text := "ef", analysis := [] },
   { text := ".", analysis := [] }]

/-- The record for the word of the second sentence. -/
def efRecord : AnalyzerRecord := { text := "ef", analysis := [] }

/-- Counterexample to claim C1 as stated.  Aligning the first sentence
"ab cd." pulls the whole stream: the record "ef" is skipped there (its
text does not occur in that sentence) yet it is consumed — nothing of
the stream remains for the second sentence "ef.", and although "ef"
occurs in that sentence's text, the record is matched into no group at
all.  A skipped record does not remain available to a later
sentence. -/
theorem c1_counterexample :
    efRecord ∈ recsC1 ∧
    containsSub (String.data "ef.") (String.data efRecord.text) = true ∧
    containsSub (String.data "ab cd.") (String.data efRecord.text) = false ∧
    (consumeForSentence (String.data "ab cd.") recsC1).2 = [] ∧
    efRecord ∉ List.flatten (matchedGroups ["ab cd.", "ef."] recsC1) := by
  refine ⟨by decide, by decide, by decide, by decide, by decide⟩

/-! ## Claim C2: the stopping rule of the per-sentence loop -/

/-- The per-sentence consumption loop exactly as claim C2 describes it:
a running copy of the sentence text loses the first occurrence of each
consumed record's surface text, and the loop stops pulling records as
soon as this running remainder contains no alphanumeric characters.
(Skipping behaviour is kept as in the code — the claim is silent on
it — so that the two functions differ only in remainder tracking.) -/
def claimConsumeRunning (rem : List Char) : List AnalyzerRecord →
    List AnalyzerRecord × List AnalyzerRecord
  | [] => ([], [])
  | r :: rs =>
    if containsSub rem r.text.data then
      if hasAlnum (removeFirst rem r.text.data) then
        let p := claimConsumeRunning (removeFirst rem r.text.data) rs
        ((if hasAlnum r.text.data then r :: p.1 else p.1), p.2)
      else
        ((if hasAlnum r.text.data then [r] else []), rs)
    else
      claimConsumeRunning rem rs

/-- Does this record stop the loop of the source: its text occurs in
the (original) sentence text and the sentence minus the first
occurrence of this one text has no alphanumeric characters. -/
def isBreakRecord (s : List Char) (r : AnalyzerRecord) : Bool :=
  containsSub s r.text.data && !hasAlnum (removeFirst s r.text.data)

/-- Index of the first record of the stream that stops the loop. -/
def breakIdx (s : List Char) : List AnalyzerRecord → Option Nat
  | [] => none
  | r :: rs => if isBreakRecord s r then some 0 else (breakIdx s rs).map (· + 1)

/-- How many records the loop pulls from the stream for this sentence:
up to and including the first break record, or the whole stream. -/
def stopCount (s : List Char) (rs : List AnalyzerRecord) : Nat :=
  match breakIdx s rs with
  | some k => k + 1
  | none => rs.length

theorem stopCount_cons_break {s : List Char} {r : AnalyzerRecord}
    (rs : List AnalyzerRecord) (hbr : isBreakRecord s r = true) :
    stopCount s (r :: rs) = 1 := by
  unfold stopCount breakIdx
  rw [if_pos hbr]

theorem stopCount_cons_not {s : List Char} {r : AnalyzerRecord}
    (rs : List AnalyzerRecord) (hbr : isBreakRecord s r = false) :
    stopCount s (r :: rs) = stopCount s rs + 1 := by
  have hcons : breakIdx s (r :: rs) = (breakIdx s rs).map (· + 1) := by
    show (if isBreakRecord s r = true then some 0
          else (breakIdx s rs).map (· + 1)) = _
    rw [if_neg (by simp [hbr])]
  unfold stopCount
  rw [hcons]
  cases hk : breakIdx s rs <;> simp

/-- Claim C2, corrected (the stopping rule the code actually
implements).  The loop tests, for each pulled record, the ORIGINAL
sentence text minus the first occurrence of that one record's surface
text — there is no running copy — and it stops pulling exactly at the
first in-sentence record whose single-removal remainder has no
alphanumeric characters (consuming the whole stream when there is no
such record).  The matched group consists of the in-sentence,
alphanumeric-containing records among those pulled. -/
theorem c2_stop_rule_amended (s : List Char) :
    ∀ (rs : List AnalyzerRecord),
      consumeForSentence s rs =
        ((rs.take (stopCount s rs)).filter
           (fun r => containsSub s r.text.data && hasAlnum r.text.data),
         rs.drop (stopCount s rs)) := by
  intro rs
  induction rs with
  | nil => rfl
  | cons r rs ih =>
    by_cases hbr : isBreakRecord s r = true
    · have hcb : containsSub s r.text.data = true ∧
          (!hasAlnum (removeFirst s r.text.data)) = true := by
        unfold isBreakRecord at hbr
        rw [Bool.and_eq_true] at hbr
        exact hbr
      have hc := hcb.1
      have hb : hasAlnum (removeFirst s r.text.data) = false := by
        simpa using hcb.2
      rw [stopCount_cons_break rs hbr]
      simp only [consumeForSentence, if_pos hc, hb, List.take_succ_cons, List.take_zero,
        List.filter_cons, List.filter_nil, List.drop_succ_cons, List.drop_zero, hc]
      simp
    · have hbr' : isBreakRecord s r = false := by simpa using hbr
      rw [stopCount_cons_not rs hbr']
      simp only [List.take_succ_cons, List.drop_succ_cons, List.filter_cons]
      by_cases hc : containsSub s r.text.data = true
      · have hb : hasAlnum (removeFirst s r.text.data) = true := by
          unfold isBreakRecord at hbr'
          rw [hc] at hbr'
          simpa using hbr'
        simp only [consumeForSentence, if_pos hc, if_pos hb]
        rw [ih, hc]
        simp
      · have hc' : containsSub s r.text.data = false := by simpa using hc
        simp only [consumeForSentence, hc', if_false, Bool.false_eq_true]
        rw [ih]
        simp

/-- The analyzer stream for the sentence "ab cd." followed by one
record from a later sentence. -/
def recsC2 : List AnalyzerRecord :=
  [{ text := "ab", analysis := [] }, { text := " ", analysis := [] },
   { text := "cd", analysis := [] }, { text := ".", analysis := [] },
   { text := "ef", analysis := [] }]

/-- Counterexample to claim C2 as stated.  Under the claimed rule the
running remainder of "ab cd." is exhausted of alphanumerics after the
records "ab", " ", "cd" (it is then "."), so the loop would stop there
and leave the records "." and "ef" in the stream; the code instead
re-tests the original sentence text each round, never sees an
exhausted remainder, and pulls the stream to its end. -/
theorem c2_counterexample :
    claimConsumeRunning (String.data "ab cd.") recsC2 =
      ([{ text := "ab", analysis := [] }, { text := "cd", analysis := [] }],
       [{ text := ".", analysis := [] }, { text := "ef", analysis := [] }]) ∧
    (consumeForSentence (String.data "ab cd.") recsC2).2 = [] ∧
    consumeForSentence (String.data "ab cd.") recsC2 ≠
      claimConsumeRunning (String.data "ab cd.") recsC2 := by
  refine ⟨by decide, by decide, by decide⟩
